import Mathlib

/-!
Shallow embedding of the job matching program (`job_match_two.py`).

Python strings are modelled as lists of characters (`List Char`), Python
sets as `Finset`, and the floating point match percentage as an exact
rational number (`ℚ`).  The parallel worker pool is modelled by an explicit
completion order of the per-seeker tasks, with the results gathered back in
task-index order as `Pool.starmap` does.
-/

/-- Python `s.split(',')`: cut the character list at every comma.
In particular `splitComma [] = [[]]`, matching Python where
an empty string splits to a list holding one empty string. -/
def splitComma : List Char → List (List Char)
  | [] => [[]]
  | c :: rest =>
    if c = ',' then [] :: splitComma rest
    else
      match splitComma rest with
      | [] => [[c]]
      | piece :: pieces => (c :: piece) :: pieces

/-- Python `','.join(pieces)`. -/
def joinComma : List (List Char) → List Char
  | [] => []
  | [piece] => piece
  | piece :: rest => piece ++ ',' :: joinComma rest

/-- Removal of trailing whitespace, the right half of Python `s.strip()`. -/
def dropTrailingWS (l : List Char) : List Char :=
  (l.reverse.dropWhile Char.isWhitespace).reverse

/-- Python `s.strip()`: remove leading and trailing whitespace characters. -/
def stripChars (l : List Char) : List Char :=
  dropTrailingWS (l.dropWhile Char.isWhitespace)

/-- Python `s.lower()`, character by character. -/
def lowerChars (l : List Char) : List Char := l.map Char.toLower

/-- The skill-string parsing performed by the constructors of `JobSeeker`
and `Job`: split the raw string on commas, strip and lowercase each piece,
and collect the results into a set. -/
def normalizeSkills (raw : List Char) : Finset (List Char) :=
  ((splitComma raw).map (fun piece => lowerChars (stripChars piece))).toFinset

/-- The `JobSeeker` class: id, name, and the parsed skill set. -/
structure JobSeeker where
  id : Int
  name : List Char
  skills : Finset (List Char)
deriving DecidableEq

/-- `JobSeeker.__init__`, taking the raw comma separated skills string. -/
def JobSeeker.make (id : Int) (name : List Char) (skills : List Char) : JobSeeker :=
  ⟨id, name, normalizeSkills skills⟩

/-- The `Job` class: id, title, and the parsed required skill set. -/
structure Job where
  id : Int
  title : List Char
  required_skills : Finset (List Char)
deriving DecidableEq

/-- `Job.__init__`, taking the raw comma separated required skills string. -/
def Job.make (id : Int) (title : List Char) (required_skills : List Char) : Job :=
  ⟨id, title, normalizeSkills required_skills⟩

/-- `match_skills`: intersection count, and the percentage of required
skills matched, as an exact rational.  The division is guarded by the
`total_required_skills > 0` test exactly as in the source. -/
def match_skills (js_skills job_skills : Finset (List Char)) : Nat × ℚ :=
  let matching_skills := js_skills ∩ job_skills
  let match_count := matching_skills.card
  let total_required_skills := job_skills.card
  let match_percent : ℚ :=
    if total_required_skills > 0 then
      ((match_count : ℚ) / (total_required_skills : ℚ)) * 100
    else 0
  (match_count, match_percent)

/-- A jobseeker row as fetched back from the store: the skills are a single
comma separated string column. -/
structure JsRow where
  id : Int
  name : List Char
  skills : List Char
deriving DecidableEq

/-- A job row as fetched back from the store. -/
structure JobRow where
  id : Int
  title : List Char
  required_skills : List Char
deriving DecidableEq

/-- The record built for each (jobseeker, job) pair. -/
structure Recommendation where
  jobseeker_id : Int
  jobseeker_name : List Char
  job_id : Int
  job_title : List Char
  matching_skill_count : Nat
  matching_skill_percent : ℚ
deriving DecidableEq

/-- The plain comma split used inside `process_recommendations` on the
stored skill strings: a set of the split pieces, with no strip or lower. -/
def plainSkillSet (s : List Char) : Finset (List Char) :=
  (splitComma s).toFinset

/-- `process_recommendations`: one `Recommendation` per job in `job_data`,
scored by `match_skills` on the plainly split skill strings. -/
def process_recommendations (js_data : JsRow) (job_data : List JobRow) :
    List Recommendation :=
  let js_skills := plainSkillSet js_data.skills
  job_data.map (fun job =>
    let job_skills := plainSkillSet job.required_skills
    let mc := match_skills js_skills job_skills
    ⟨js_data.id, js_data.name, job.id, job.title, mc.1, mc.2⟩)

/-- The composite sort key comparison of the final sort: lexicographic on
the tuple (jobseeker_id, negated matching_skill_percent, job_id), each
component ascending, mirroring the key function of the source. -/
def keyLex (a b : Recommendation) : Prop :=
  a.jobseeker_id < b.jobseeker_id ∨
    (a.jobseeker_id = b.jobseeker_id ∧
      (-a.matching_skill_percent < -b.matching_skill_percent ∨
        (-a.matching_skill_percent = -b.matching_skill_percent ∧
          a.job_id ≤ b.job_id)))

instance keyLexDecidable (a b : Recommendation) : Decidable (keyLex a b) := by
  unfold keyLex
  infer_instance

/-- Boolean form of the key comparison, used by the sort. -/
def recLe (a b : Recommendation) : Bool := decide (keyLex a b)

/-- Python `sorted` with the composite key. -/
def sortRecommendations (l : List Recommendation) : List Recommendation :=
  l.mergeSort recLe

/-- Sequential dispatch: a plain map of `process_recommendations` over the
seeker list, then the same flattening and sort as the source. -/
def generate_recommendation_sequential (jobseekers : List JsRow)
    (jobs : List JobRow) : List Recommendation :=
  let results := jobseekers.map (fun js => process_recommendations js jobs)
  let recommendations := results.flatten
  sortRecommendations recommendations

/-- Model of the worker pool execution inside `Pool.starmap`: the tasks
finish in the completion order `order`; each completed task is tagged with
its task index. -/
def starmapCompleted {α β : Type} (f : α → β) (tasks : List α)
    (order : List (Fin tasks.length)) : List (Fin tasks.length × β) :=
  order.map (fun i => (i, f (tasks.get i)))

/-- `Pool.starmap` gathers the completed results back in task-index order;
gathering fails if some task never completed. -/
def collectResults {β : Type} (n : Nat) (completed : List (Fin n × β)) :
    Option (List β) :=
  (List.finRange n).mapM
    (fun i => Option.map Prod.snd (completed.find? (fun q => decide (q.1 = i))))

/-- `generate_recommendation_parallel`: fan `process_recommendations` out
over the seekers via the pool (modelled by the completion order `order`),
flatten the per-seeker result lists and sort by the composite key. -/
def generate_recommendation_parallel (jobseekers : List JsRow)
    (jobs : List JobRow) (order : List (Fin jobseekers.length)) :
    Option (List Recommendation) :=
  Option.map
    (fun results => sortRecommendations results.flatten)
    (collectResults jobseekers.length
      (starmapCompleted (fun js => process_recommendations js jobs) jobseekers order))

/-! Lemmas about `splitComma` and `joinComma`. -/

theorem splitComma_ne_nil (l : List Char) : splitComma l ≠ [] := by
  induction l with
  | nil => simp [splitComma]
  | cons c rest ih =>
    by_cases h : c = ','
    · simp [splitComma, h]
    · simp only [splitComma, if_neg h]
      rcases hs : splitComma rest with _ | ⟨p, ps⟩ <;> simp

theorem comma_not_mem_of_mem_splitComma (l : List Char) :
    ∀ piece ∈ splitComma l, ',' ∉ piece := by
  induction l with
  | nil =>
    intro piece hp
    simp only [splitComma, List.mem_singleton] at hp
    simp [hp]
  | cons c rest ih =>
    intro piece hp
    by_cases h : c = ','
    · simp only [splitComma, if_pos h, List.mem_cons] at hp
      rcases hp with rfl | hp
      · simp
      · exact ih piece hp
    · simp only [splitComma, if_neg h] at hp
      rcases hs : splitComma rest with _ | ⟨p, ps⟩
      · rw [hs] at hp
        simp only [List.mem_singleton] at hp
        subst hp
        simp [Ne.symm h]
      · rw [hs] at hp
        simp only [List.mem_cons] at hp
        rcases hp with rfl | hp
        · have hp' : ',' ∉ p := ih p (by rw [hs]; exact List.mem_cons_self p ps)
          intro hmem
          rcases List.mem_cons.mp hmem with h1 | h1
          · exact h h1.symm
          · exact hp' h1
        · exact ih piece (by rw [hs]; exact List.mem_cons_of_mem p hp)

theorem splitComma_eq_single (l : List Char) (h : ',' ∉ l) :
    splitComma l = [l] := by
  induction l with
  | nil => simp [splitComma]
  | cons c rest ih =>
    have hc : ¬ c = ',' := fun hc => h (by simp [hc])
    have hrest : ',' ∉ rest := fun hr => h (List.mem_cons_of_mem c hr)
    simp only [splitComma, if_neg hc, ih hrest]

theorem splitComma_append_comma (x rest : List Char) (h : ',' ∉ x) :
    splitComma (x ++ ',' :: rest) = x :: splitComma rest := by
  induction x with
  | nil => simp [splitComma]
  | cons c t ih =>
    have hc : ¬ c = ',' := fun hc => h (by simp [hc])
    have ht : ',' ∉ t := fun hr => h (List.mem_cons_of_mem c hr)
    simp only [List.cons_append, splitComma, if_neg hc, List.append_eq, ih ht]

theorem joinComma_cons_cons (x y : List Char) (t : List (List Char)) :
    joinComma (x :: y :: t) = x ++ ',' :: joinComma (y :: t) := rfl

theorem splitComma_joinComma (ls : List (List Char)) (hne : ls ≠ [])
    (hfree : ∀ p ∈ ls, ',' ∉ p) : splitComma (joinComma ls) = ls := by
  induction ls with
  | nil => exact absurd rfl hne
  | cons x t ih =>
    cases t with
    | nil =>
      have hx : ',' ∉ x := hfree x (List.mem_cons_self x [])
      simp [joinComma, splitComma_eq_single x hx]
    | cons y t' =>
      rw [joinComma_cons_cons,
        splitComma_append_comma x (joinComma (y :: t'))
          (hfree x (List.mem_cons_self x (y :: t'))),
        ih (by simp) (fun p hp => hfree p (List.mem_cons_of_mem x hp))]

/-! Character-level lemmas about lowercasing and whitespace. -/

theorem char_toLower_eq (c : Char) :
    c.toLower = if c.toNat ≥ 65 ∧ c.toNat ≤ 90 then Char.ofNat (c.toNat + 32) else c := rfl

theorem char_toLower_idem (c : Char) : c.toLower.toLower = c.toLower := by
  rw [char_toLower_eq c]
  by_cases h : c.toNat ≥ 65 ∧ c.toNat ≤ 90
  · rw [if_pos h]
    obtain ⟨h1, h2⟩ := h
    revert h1 h2
    generalize c.toNat = n
    intro h1 h2
    interval_cases n <;> decide
  · rw [if_neg h, char_toLower_eq c, if_neg h]

theorem char_toLower_isWhitespace (c : Char) :
    c.toLower.isWhitespace = c.isWhitespace := by
  rw [char_toLower_eq c]
  by_cases h : c.toNat ≥ 65 ∧ c.toNat ≤ 90
  · rw [if_pos h]
    obtain ⟨h1, h2⟩ := h
    have hne : ∀ d : Char, d.toNat < 65 → c ≠ d := by
      intro d hd hcd
      rw [hcd] at h1
      omega
    have hws : c.isWhitespace = false := by
      simp [Char.isWhitespace, hne ' ' (by decide), hne '\t' (by decide),
        hne '\x0d' (by decide), hne '\n' (by decide)]
    rw [hws]
    revert h1 h2
    generalize c.toNat = n
    intro h1 h2
    interval_cases n <;> decide
  · rw [if_neg h]

theorem char_toLower_ne_comma (c : Char) (h : c ≠ ',') : c.toLower ≠ ',' := by
  rw [char_toLower_eq c]
  by_cases hr : c.toNat ≥ 65 ∧ c.toNat ≤ 90
  · rw [if_pos hr]
    obtain ⟨h1, h2⟩ := hr
    revert h1 h2
    generalize c.toNat = n
    intro h1 h2
    interval_cases n <;> decide
  · rw [if_neg hr]
    exact h

/-! Lemmas about `lowerChars`, `stripChars` and `normalizeSkills`. -/

theorem lowerChars_lowerChars (l : List Char) :
    lowerChars (lowerChars l) = lowerChars l := by
  unfold lowerChars
  rw [List.map_map]
  exact List.map_congr_left (fun a _ => char_toLower_idem a)

theorem comma_not_mem_lowerChars (l : List Char) (h : ',' ∉ l) :
    ',' ∉ lowerChars l := by
  unfold lowerChars
  intro hmem
  rcases List.mem_map.mp hmem with ⟨c, hc, heq⟩
  exact char_toLower_ne_comma c (fun hceq => h (hceq ▸ hc)) heq

theorem dropWhile_idem {α : Type} (p : α → Bool) (l : List α) :
    (l.dropWhile p).dropWhile p = l.dropWhile p := by
  induction l with
  | nil => rfl
  | cons a t ih =>
    by_cases h : p a
    · simp [List.dropWhile_cons, h, ih]
    · simp [List.dropWhile_cons, h]

theorem dropTrailingWS_idem (l : List Char) :
    dropTrailingWS (dropTrailingWS l) = dropTrailingWS l := by
  unfold dropTrailingWS
  rw [List.reverse_reverse, dropWhile_idem]

theorem dropTrailingWS_cons (a : Char) (t : List Char) :
    dropTrailingWS (a :: t) =
      if (t.reverse.dropWhile Char.isWhitespace).isEmpty
      then ([a].dropWhile Char.isWhitespace).reverse
      else a :: dropTrailingWS t := by
  unfold dropTrailingWS
  rw [List.reverse_cons, List.dropWhile_append]
  by_cases he : (t.reverse.dropWhile Char.isWhitespace).isEmpty
  · rw [if_pos he, if_pos he]
  · rw [if_neg he, if_neg he, List.reverse_append]
    simp

theorem dropWhile_dropTrailingWS_comm (l : List Char) :
    (dropTrailingWS l).dropWhile Char.isWhitespace =
      dropTrailingWS (l.dropWhile Char.isWhitespace) := by
  induction l with
  | nil => rfl
  | cons a t ih =>
    by_cases h : Char.isWhitespace a
    · by_cases he : (t.reverse.dropWhile Char.isWhitespace).isEmpty
      · have hall : ∀ x ∈ t, Char.isWhitespace x := by
          intro x hx
          have := List.dropWhile_eq_nil_iff.mp (List.isEmpty_iff.mp he)
          exact this x (List.mem_reverse.mpr hx)
        have ht0 : t.dropWhile Char.isWhitespace = [] :=
          List.dropWhile_eq_nil_iff.mpr hall
        rw [dropTrailingWS_cons, if_pos he]
        have hdw : (a :: t).dropWhile Char.isWhitespace = [] := by
          rw [List.dropWhile_cons, if_pos h, ht0]
        rw [hdw]
        simp [List.dropWhile_cons, h]
        rfl
      · rw [dropTrailingWS_cons, if_neg he]
        rw [List.dropWhile_cons, if_pos h, List.dropWhile_cons, if_pos h]
        exact ih
    · have hdw : (a :: t).dropWhile Char.isWhitespace = a :: t := by
        rw [List.dropWhile_cons, if_neg h]
      rw [hdw]
      by_cases he : (t.reverse.dropWhile Char.isWhitespace).isEmpty
      · rw [dropTrailingWS_cons, if_pos he]
        simp [List.dropWhile_cons, h]
      · rw [dropTrailingWS_cons, if_neg he]
        rw [List.dropWhile_cons, if_neg h]

theorem stripChars_idem (l : List Char) :
    stripChars (stripChars l) = stripChars l := by
  unfold stripChars
  rw [dropWhile_dropTrailingWS_comm, dropWhile_idem, dropTrailingWS_idem]

theorem lowerChars_stripChars_comm (l : List Char) :
    stripChars (lowerChars l) = lowerChars (stripChars l) := by
  have hcomp : Char.isWhitespace ∘ Char.toLower = Char.isWhitespace :=
    funext char_toLower_isWhitespace
  unfold stripChars dropTrailingWS lowerChars
  rw [List.dropWhile_map, hcomp, ← List.map_reverse, List.dropWhile_map, hcomp,
    ← List.map_reverse]

theorem stripChars_subset (l : List Char) : stripChars l ⊆ l := by
  unfold stripChars dropTrailingWS
  intro x hx
  rw [List.mem_reverse] at hx
  have h1 := (List.dropWhile_sublist _).subset hx
  rw [List.mem_reverse] at h1
  exact (List.dropWhile_sublist _).subset h1

theorem normalizeSkills_token_props (s : List Char) :
    ∀ t ∈ normalizeSkills s, stripChars t = t ∧ lowerChars t = t ∧ ',' ∉ t := by
  intro t ht
  rw [normalizeSkills, List.mem_toFinset] at ht
  rcases List.mem_map.mp ht with ⟨piece, hpiece, rfl⟩
  have hfree : ',' ∉ piece := comma_not_mem_of_mem_splitComma s piece hpiece
  have hfree2 : ',' ∉ stripChars piece := fun hc => hfree (stripChars_subset piece hc)
  refine ⟨?_, ?_, ?_⟩
  · rw [lowerChars_stripChars_comm, stripChars_idem]
  · exact lowerChars_lowerChars _
  · exact comma_not_mem_lowerChars _ hfree2

theorem normalizeSkills_nonempty (s : List Char) : (normalizeSkills s).Nonempty := by
  rw [normalizeSkills]
  rcases hs : splitComma s with _ | ⟨p, ps⟩
  · exact absurd hs (splitComma_ne_nil s)
  · exact ⟨lowerChars (stripChars p), by simp⟩

/-! Lemmas about `match_skills`. -/

theorem match_skills_fst (A B : Finset (List Char)) :
    (match_skills A B).1 = (A ∩ B).card := rfl

theorem match_skills_snd (A B : Finset (List Char)) :
    (match_skills A B).2 =
      if B.card > 0 then (((A ∩ B).card : ℚ) / (B.card : ℚ)) * 100 else 0 := rfl

/-- C1: `match_skills A B` returns the pair of the intersection count and
100 * count / card B when B is non-empty, and the pair (count, 0) when B is
empty.  It is a Lean function, hence pure and deterministic in its two
arguments. -/
theorem c1_match_skills_count_and_percent (A B : Finset (List Char)) :
    match_skills A B =
      ((A ∩ B).card,
        if B ≠ ∅ then 100 * ((A ∩ B).card : ℚ) / (B.card : ℚ) else 0) := by
  simp only [match_skills]
  by_cases hB : B = ∅
  · subst hB
    simp
  · have hpos : 0 < B.card := Finset.card_pos.mpr (Finset.nonempty_iff_ne_empty.mpr hB)
    rw [if_pos hpos, if_pos hB]
    simp only [Prod.mk.injEq, true_and]
    ring

/-- C5: the empty required-skill set yields the pair (0, 0); the division
is guarded by the positivity test, so no division fault can occur. -/
theorem c5_match_skills_empty_required (A : Finset (List Char)) :
    match_skills A ∅ = (0, 0) := by
  simp [match_skills]

/-- C9: the count is at most the card of each argument, and the percent,
computed in exact rational arithmetic, lies in the closed interval
from 0 to 100. -/
theorem c9_match_skills_bounds (A B : Finset (List Char)) :
    (match_skills A B).1 ≤ B.card ∧ (match_skills A B).1 ≤ A.card ∧
      0 ≤ (match_skills A B).2 ∧ (match_skills A B).2 ≤ 100 := by
  refine ⟨Finset.card_le_card Finset.inter_subset_right,
    Finset.card_le_card Finset.inter_subset_left, ?_, ?_⟩
  · rw [match_skills_snd]
    by_cases h : 0 < B.card
    · rw [if_pos h]
      positivity
    · rw [if_neg h]
  · rw [match_skills_snd]
    by_cases h : 0 < B.card
    · rw [if_pos h]
      have hle : ((A ∩ B).card : ℚ) ≤ (B.card : ℚ) := by
        exact_mod_cast Finset.card_le_card Finset.inter_subset_right
      have hn : (0 : ℚ) < (B.card : ℚ) := by exact_mod_cast h
      have h1 : ((A ∩ B).card : ℚ) / (B.card : ℚ) ≤ 1 := (div_le_one hn).mpr hle
      linarith
    · rw [if_neg h]
      norm_num

/-- C10: the percent equals 100 exactly when the required set is non-empty
and contained in the seeker set; and since a blank skill string normalizes
to the singleton holding the empty string, blank against blank scores
(1, 100). -/
theorem c10_full_match_iff :
    (∀ A B : Finset (List Char),
        ((match_skills A B).2 = 100 ↔ B ≠ ∅ ∧ B ⊆ A)) ∧
      match_skills (normalizeSkills []) (normalizeSkills []) = (1, 100) := by
  constructor
  · intro A B
    rw [match_skills_snd]
    by_cases hB : B = ∅
    · subst hB
      norm_num
    · have hpos : 0 < B.card :=
        Finset.card_pos.mpr (Finset.nonempty_iff_ne_empty.mpr hB)
      rw [if_pos hpos]
      have hn : ((B.card : ℚ)) ≠ 0 := by positivity
      constructor
      · intro heq
        refine ⟨hB, ?_⟩
        have hc : ((A ∩ B).card : ℚ) = (B.card : ℚ) := by
          field_simp at heq
          linarith
        have hcn : (A ∩ B).card = B.card := by exact_mod_cast hc
        have hsub : A ∩ B = B :=
          Finset.eq_of_subset_of_card_le Finset.inter_subset_right (le_of_eq hcn.symm)
        exact Finset.inter_eq_right.mp hsub
      · rintro ⟨-, hsub⟩
        rw [Finset.inter_eq_right.mpr hsub]
        field_simp
  · have h0 : normalizeSkills [] = {([] : List Char)} := by decide
    rw [h0]
    simp only [match_skills, Finset.inter_self, Finset.card_singleton]
    norm_num

/-- C6 counterexample: on the empty raw string the constructors produce a
non-empty skill set (the singleton holding the empty string), refuting the
claim that the empty raw input yields an empty set. -/
theorem c6_counterexample :
    (JobSeeker.make 7 [] []).skills ≠ (∅ : Finset (List Char)) ∧
      (Job.make 7 [] []).required_skills ≠ (∅ : Finset (List Char)) := by
  constructor <;> decide

/-- C6 amended: on an empty raw skills string the constructors of
`JobSeeker` and `Job` produce the singleton set holding the empty string. -/
theorem c6_amended_empty_raw (i : Int) (nm t : List Char) :
    (JobSeeker.make i nm []).skills = {([] : List Char)} ∧
      (Job.make i t []).required_skills = {([] : List Char)} := by
  have h : normalizeSkills [] = {([] : List Char)} := by decide
  exact ⟨h, h⟩

/-- C7: re-serializing a normalized skill set by joining its elements with
commas and normalizing again recovers the same set, and the plain comma
split used on the stored joined string recovers exactly the set the
constructors produced. -/
theorem c7_normalize_render_roundtrip (s : List Char) (l : List (List Char))
    (hnd : l.Nodup) (hl : l.toFinset = normalizeSkills s) :
    normalizeSkills (joinComma l) = normalizeSkills s ∧
      plainSkillSet (joinComma l) = normalizeSkills s := by
  have htok : ∀ t ∈ l, stripChars t = t ∧ lowerChars t = t ∧ ',' ∉ t := by
    intro t ht
    exact normalizeSkills_token_props s t (hl ▸ List.mem_toFinset.mpr ht)
  have hfree : ∀ t ∈ l, ',' ∉ t := fun t ht => (htok t ht).2.2
  have hne : l ≠ [] := by
    intro h0
    obtain ⟨x, hx⟩ := normalizeSkills_nonempty s
    rw [← hl, h0] at hx
    simp at hx
  have hsplit : splitComma (joinComma l) = l := splitComma_joinComma l hne hfree
  have hmap : l.map (fun piece => lowerChars (stripChars piece)) = l := by
    have hpt : ∀ t ∈ l, lowerChars (stripChars t) = t := by
      intro t ht
      rw [(htok t ht).1, (htok t ht).2.1]
    calc l.map (fun piece => lowerChars (stripChars piece)) = l.map id :=
          List.map_congr_left hpt
      _ = l := List.map_id l
  constructor
  · rw [normalizeSkills, hsplit, hmap, hl]
  · rw [plainSkillSet, hsplit, hl]

/-- Witness for C7 at a concrete skill string and rendering order. -/
theorem c7_witness :
    normalizeSkills (joinComma [['b'], ['a']]) =
        normalizeSkills [' ', 'B', ',', 'a'] ∧
      plainSkillSet (joinComma [['b'], ['a']]) =
        normalizeSkills [' ', 'B', ',', 'a'] :=
  c7_normalize_render_roundtrip [' ', 'B', ',', 'a'] [['b'], ['a']]
    (by decide) (by decide)

/-! Lemmas about the composite key comparison and the sort. -/

theorem keyLex_total (a b : Recommendation) : keyLex a b ∨ keyLex b a := by
  unfold keyLex
  rcases lt_trichotomy a.jobseeker_id b.jobseeker_id with h | h | h
  · exact Or.inl (Or.inl h)
  · rcases lt_trichotomy (-a.matching_skill_percent) (-b.matching_skill_percent) with
      h2 | h2 | h2
    · exact Or.inl (Or.inr ⟨h, Or.inl h2⟩)
    · rcases le_total a.job_id b.job_id with h3 | h3
      · exact Or.inl (Or.inr ⟨h, Or.inr ⟨h2, h3⟩⟩)
      · exact Or.inr (Or.inr ⟨h.symm, Or.inr ⟨h2.symm, h3⟩⟩)
    · exact Or.inr (Or.inr ⟨h.symm, Or.inl h2⟩)
  · exact Or.inr (Or.inl h)

theorem keyLex_trans (a b c : Recommendation) (h1 : keyLex a b) (h2 : keyLex b c) :
    keyLex a c := by
  unfold keyLex at h1 h2 ⊢
  rcases h1 with h1 | ⟨e1, h1⟩
  · rcases h2 with h2 | ⟨e2, h2⟩
    · exact Or.inl (h1.trans h2)
    · exact Or.inl (by rw [← e2]; exact h1)
  · rcases h2 with h2 | ⟨e2, h2⟩
    · exact Or.inl (by rw [e1]; exact h2)
    · refine Or.inr ⟨e1.trans e2, ?_⟩
      rcases h1 with h1 | ⟨f1, h1⟩
      · rcases h2 with h2 | ⟨f2, h2⟩
        · exact Or.inl (h1.trans h2)
        · exact Or.inl (by rw [← f2]; exact h1)
      · rcases h2 with h2 | ⟨f2, h2⟩
        · exact Or.inl (by rw [f1]; exact h2)
        · exact Or.inr ⟨f1.trans f2, h1.trans h2⟩

theorem keyLex_antisymm (a b : Recommendation) (h1 : keyLex a b) (h2 : keyLex b a) :
    a.jobseeker_id = b.jobseeker_id ∧
      a.matching_skill_percent = b.matching_skill_percent ∧ a.job_id = b.job_id := by
  unfold keyLex at h1 h2
  rcases h1 with h1 | ⟨e1, h1⟩
  · rcases h2 with h2 | ⟨e2, h2⟩
    · exact absurd (h1.trans h2) (lt_irrefl _)
    · rw [e2] at h1
      exact absurd h1 (lt_irrefl _)
  · rcases h2 with h2 | ⟨e2, h2⟩
    · rw [e1] at h2
      exact absurd h2 (lt_irrefl _)
    · refine ⟨e1, ?_⟩
      rcases h1 with h1 | ⟨f1, h1⟩
      · rcases h2 with h2 | ⟨f2, h2⟩
        · exact absurd (h1.trans h2) (lt_irrefl _)
        · rw [f2] at h1
          exact absurd h1 (lt_irrefl _)
      · rcases h2 with h2 | ⟨f2, h2⟩
        · rw [f1] at h2
          exact absurd h2 (lt_irrefl _)
        · exact ⟨neg_injective f1, le_antisymm h1 h2⟩

theorem recLe_trans : ∀ a b c : Recommendation,
    recLe a b = true → recLe b c = true → recLe a c = true := by
  intro a b c h1 h2
  simp only [recLe, decide_eq_true_eq] at h1 h2 ⊢
  exact keyLex_trans a b c h1 h2

theorem recLe_total : ∀ a b : Recommendation, (recLe a b || recLe b a) = true := by
  intro a b
  simp only [recLe, Bool.or_eq_true, decide_eq_true_eq]
  exact keyLex_total a b

theorem sortRecommendations_sorted (l : List Recommendation) :
    (sortRecommendations l).Pairwise keyLex := by
  have h := List.sorted_mergeSort recLe_trans recLe_total l
  refine h.imp ?_
  intro a b hab
  simp only [recLe, decide_eq_true_eq] at hab
  exact hab

theorem sortRecommendations_perm (l : List Recommendation) :
    (sortRecommendations l).Perm l :=
  List.mergeSort_perm l recLe

/-- C2: any recommendation list returned by the generator is sorted by the
composite key (jobseeker id ascending, percent descending, job id
ascending); in particular two jobs of one seeker with equal percent appear
in ascending job-id order.  The default value covers the failure case of
the gather, where no list is returned at all. -/
theorem c2_output_sorted_by_composite_key (jobseekers : List JsRow)
    (jobs : List JobRow) (order : List (Fin jobseekers.length)) :
    ((generate_recommendation_parallel jobseekers jobs order).getD []).Pairwise
      keyLex := by
  unfold generate_recommendation_parallel
  cases h : collectResults jobseekers.length
      (starmapCompleted (fun js => process_recommendations js jobs) jobseekers order) with
  | none => simp
  | some results =>
    rw [Option.map_some', Option.getD_some]
    exact sortRecommendations_sorted _

/-! Lemmas about the worker pool model. -/

theorem find?_starmapCompleted {α β : Type} (f : α → β) (tasks : List α)
    (order : List (Fin tasks.length)) (i : Fin tasks.length) (hi : i ∈ order) :
    (starmapCompleted f tasks order).find? (fun q => decide (q.1 = i)) =
      some (i, f (tasks.get i)) := by
  induction order with
  | nil => cases hi
  | cons j rest ih =>
    unfold starmapCompleted at ih ⊢
    rw [List.map_cons, List.find?_cons]
    by_cases h : j = i
    · subst h
      simp
    · rcases List.mem_cons.mp hi with h1 | h1
      · exact absurd h1.symm h
      · simpa [h] using ih h1

theorem mapM_option_eq_some_map {α β : Type} (F : α → Option β) (g : α → β)
    (l : List α) (h : ∀ a ∈ l, F a = some (g a)) : l.mapM F = some (l.map g) := by
  induction l with
  | nil => rfl
  | cons a t ih =>
    rw [List.map_cons, List.mapM_cons, h a (List.mem_cons_self a t),
      ih (fun x hx => h x (List.mem_cons_of_mem a hx))]
    rfl

theorem collectResults_starmapCompleted {α β : Type} (f : α → β) (tasks : List α)
    (order : List (Fin tasks.length))
    (hcomplete : ∀ i : Fin tasks.length, i ∈ order) :
    collectResults tasks.length (starmapCompleted f tasks order) =
      some (tasks.map f) := by
  unfold collectResults
  have hmap : (List.finRange tasks.length).map (fun i => f (tasks.get i)) =
      tasks.map f := by
    calc (List.finRange tasks.length).map (fun i => f (tasks.get i))
        = ((List.finRange tasks.length).map tasks.get).map f := by
          rw [List.map_map]
          rfl
      _ = tasks.map f := by rw [List.finRange_map_get]
  rw [← hmap]
  apply mapM_option_eq_some_map
  intro i hi
  rw [find?_starmapCompleted f tasks order i (hcomplete i)]
  rfl

theorem parallel_eq_of_complete (jobseekers : List JsRow) (jobs : List JobRow)
    (order : List (Fin jobseekers.length))
    (hcomplete : ∀ i : Fin jobseekers.length, i ∈ order) :
    generate_recommendation_parallel jobseekers jobs order =
      some (sortRecommendations
        ((jobseekers.map (fun js => process_recommendations js jobs)).flatten)) := by
  unfold generate_recommendation_parallel
  rw [collectResults_starmapCompleted _ _ _ hcomplete]
  rfl

/-- C3: whenever the completion order of the workers is a permutation of
the task indices (every task runs exactly once, in any order), the parallel
dispatch returns exactly the sequential result: a sequential map of
process_recommendations over the seeker list followed by the same
flattening and sort.  Parallelism never changes the result. -/
theorem c3_parallel_eq_sequential (jobseekers : List JsRow) (jobs : List JobRow)
    (order : List (Fin jobseekers.length))
    (horder : order.Perm (List.finRange jobseekers.length)) :
    generate_recommendation_parallel jobseekers jobs order =
      some (generate_recommendation_sequential jobseekers jobs) :=
  parallel_eq_of_complete jobseekers jobs order
    (fun i => horder.mem_iff.mpr (List.mem_finRange i))

/-- Witness for C3: two seekers, one job, the workers finishing in reversed
order; the parallel result equals the sequential one. -/
theorem c3_witness :
    generate_recommendation_parallel
        [⟨1, ['a'], ['x']⟩, ⟨2, ['b'], ['y']⟩] [⟨5, ['t'], ['x']⟩]
        ([1, 0] : List (Fin 2)) =
      some (generate_recommendation_sequential
        [⟨1, ['a'], ['x']⟩, ⟨2, ['b'], ['y']⟩] [⟨5, ['t'], ['x']⟩]) :=
  c3_parallel_eq_sequential [⟨1, ['a'], ['x']⟩, ⟨2, ['b'], ['y']⟩]
    [⟨5, ['t'], ['x']⟩] ([1, 0] : List (Fin 2)) (by decide)

/-- C4: process_recommendations emits exactly one Recommendation per job,
none filtered, with identity fields copied from the seeker and the job and
the count and percent taken from match_skills on the plainly split skill
sets; dispatching over n seekers and m jobs hence yields n * m records. -/
theorem c4_one_recommendation_per_job (js : JsRow) (jobs : List JobRow) :
    (process_recommendations js jobs).length = jobs.length ∧
      (∀ k, (hk : k < jobs.length) → (hk2 : k < (process_recommendations js jobs).length) →
        (process_recommendations js jobs).get ⟨k, hk2⟩ =
          ⟨js.id, js.name, (jobs.get ⟨k, hk⟩).id, (jobs.get ⟨k, hk⟩).title,
            (match_skills (plainSkillSet js.skills)
              (plainSkillSet (jobs.get ⟨k, hk⟩).required_skills)).1,
            (match_skills (plainSkillSet js.skills)
              (plainSkillSet (jobs.get ⟨k, hk⟩).required_skills)).2⟩) ∧
      (∀ seekers : List JsRow,
        ((seekers.map (fun s => process_recommendations s jobs)).flatten).length =
          seekers.length * jobs.length) := by
  refine ⟨?_, ?_, ?_⟩
  · simp [process_recommendations]
  · intro k hk hk2
    simp only [process_recommendations, List.get_eq_getElem, List.getElem_map]
  · intro seekers
    induction seekers with
    | nil => simp
    | cons s t ih =>
      simp only [List.map_cons, List.flatten_cons, List.length_append, ih]
      simp only [process_recommendations, List.length_map]
      rw [List.length_cons]
      ring

/-- Witness for C4 at one seeker and one job. -/
theorem c4_witness :
    (process_recommendations ⟨1, ['n'], ['x']⟩ [⟨2, ['t'], ['x']⟩]).length = 1 ∧
      (process_recommendations ⟨1, ['n'], ['x']⟩ [⟨2, ['t'], ['x']⟩]).get
          ⟨0, by decide⟩ =
        ⟨1, ['n'], 2, ['t'],
          (match_skills (plainSkillSet ['x']) (plainSkillSet ['x'])).1,
          (match_skills (plainSkillSet ['x']) (plainSkillSet ['x'])).2⟩ :=
  ⟨(c4_one_recommendation_per_job ⟨1, ['n'], ['x']⟩ [⟨2, ['t'], ['x']⟩]).1,
    (c4_one_recommendation_per_job ⟨1, ['n'], ['x']⟩ [⟨2, ['t'], ['x']⟩]).2.1 0
      (by decide) (by decide)⟩

/-! Distinct identity pairs and uniqueness of the sorted output. -/

theorem idPair_symm {x y : Recommendation}
    (h : x.jobseeker_id ≠ y.jobseeker_id ∨ x.job_id ≠ y.job_id) :
    y.jobseeker_id ≠ x.jobseeker_id ∨ y.job_id ≠ x.job_id := by
  rcases h with h | h
  · exact Or.inl (Ne.symm h)
  · exact Or.inr (Ne.symm h)

theorem pairwise_idPair_flatten (seekers : List JsRow) (jobs : List JobRow)
    (hs : (seekers.map JsRow.id).Nodup) (hj : (jobs.map JobRow.id).Nodup) :
    ((seekers.map (fun js => process_recommendations js jobs)).flatten).Pairwise
      (fun a b => a.jobseeker_id ≠ b.jobseeker_id ∨ a.job_id ≠ b.job_id) := by
  rw [List.pairwise_flatten]
  constructor
  · intro l hl
    rcases List.mem_map.mp hl with ⟨js, hjs, rfl⟩
    have hj' : jobs.Pairwise (fun x y => x.id ≠ y.id) := List.pairwise_map.mp hj
    unfold process_recommendations
    rw [List.pairwise_map]
    exact hj'.imp (fun h => Or.inr h)
  · rw [List.pairwise_map]
    have hs' : seekers.Pairwise (fun x y => x.id ≠ y.id) := List.pairwise_map.mp hs
    refine hs'.imp ?_
    intro s1 s2 hne x hx y hy
    simp only [process_recommendations, List.mem_map] at hx hy
    rcases hx with ⟨j1, hj1, rfl⟩
    rcases hy with ⟨j2, hj2, rfl⟩
    exact Or.inl hne

theorem eq_of_perm_of_sorted_of_idPairs (l₁ l₂ : List Recommendation)
    (hp : l₁.Perm l₂) (hs₁ : l₁.Pairwise keyLex) (hs₂ : l₂.Pairwise keyLex)
    (hk : l₁.Pairwise
      (fun a b => a.jobseeker_id ≠ b.jobseeker_id ∨ a.job_id ≠ b.job_id)) :
    l₁ = l₂ := by
  have hk₂ := (hp.pairwise_iff (fun hxy => idPair_symm hxy)).mp hk
  have hanti : IsAntisymm Recommendation
      (fun a b => keyLex a b ∧
        (a.jobseeker_id ≠ b.jobseeker_id ∨ a.job_id ≠ b.job_id)) := by
    constructor
    intro a b h1 h2
    rcases keyLex_antisymm a b h1.1 h2.1 with ⟨e1, -, e3⟩
    rcases h1.2 with h | h
    · exact absurd e1 h
    · exact absurd e3 h
  exact @List.eq_of_perm_of_sorted _ _ hanti _ _ hp (hs₁.and hk) (hs₂.and hk₂)

/-- C8: permuting the seeker list and the job list (ids pairwise distinct)
before dispatch yields a permutation of the same Recommendations, and after
the composite-key sort the identical ordered output sequence, for any two
worker completion orders. -/
theorem c8_dispatch_order_independent (seekers seekers' : List JsRow)
    (jobs jobs' : List JobRow) (order : List (Fin seekers.length))
    (order' : List (Fin seekers'.length))
    (hps : seekers'.Perm seekers) (hpj : jobs'.Perm jobs)
    (hids : (seekers.map JsRow.id).Nodup) (hidj : (jobs.map JobRow.id).Nodup)
    (ho : order.Perm (List.finRange seekers.length))
    (ho' : order'.Perm (List.finRange seekers'.length)) :
    ((seekers'.map (fun js => process_recommendations js jobs')).flatten).Perm
        ((seekers.map (fun js => process_recommendations js jobs)).flatten) ∧
      generate_recommendation_parallel seekers' jobs' order' =
        generate_recommendation_parallel seekers jobs order := by
  have hinner : ∀ js : JsRow,
      (process_recommendations js jobs').Perm (process_recommendations js jobs) := by
    intro js
    unfold process_recommendations
    exact hpj.map _
  have hflat :
      ((seekers'.map (fun js => process_recommendations js jobs')).flatten).Perm
        ((seekers.map (fun js => process_recommendations js jobs)).flatten) := by
    rw [← List.flatMap_def, ← List.flatMap_def]
    have h1 : (seekers'.flatMap (fun js => process_recommendations js jobs')).Perm
        (seekers.flatMap (fun js => process_recommendations js jobs')) :=
      hps.flatMap_right (fun js => process_recommendations js jobs')
    have h2 : (seekers.flatMap (fun js => process_recommendations js jobs')).Perm
        (seekers.flatMap (fun js => process_recommendations js jobs)) :=
      List.Perm.flatMap_left seekers (fun js _ => hinner js)
    exact h1.trans h2
  refine ⟨hflat, ?_⟩
  rw [parallel_eq_of_complete seekers jobs order
      (fun i => ho.mem_iff.mpr (List.mem_finRange i)),
    parallel_eq_of_complete seekers' jobs' order'
      (fun i => ho'.mem_iff.mpr (List.mem_finRange i))]
  refine congrArg some ?_
  have hids' : (seekers'.map JsRow.id).Nodup := ((hps.map JsRow.id).nodup_iff).mpr hids
  have hidj' : (jobs'.map JobRow.id).Nodup := ((hpj.map JobRow.id).nodup_iff).mpr hidj
  have hkA' := pairwise_idPair_flatten seekers' jobs' hids' hidj'
  have hkS' := ((sortRecommendations_perm _).pairwise_iff
    (fun h => idPair_symm h)).mpr hkA'
  exact eq_of_perm_of_sorted_of_idPairs _ _
    ((sortRecommendations_perm _).trans (hflat.trans (sortRecommendations_perm _).symm))
    (sortRecommendations_sorted _) (sortRecommendations_sorted _) hkS'

/-- Witness for C8: two seekers swapped, one job, reversed completion
orders; the pre-sort lists are permutations and the final outputs equal. -/
theorem c8_witness :
    (([⟨2, ['b'], ['y']⟩, ⟨1, ['a'], ['x']⟩].map
          (fun js => process_recommendations js [⟨3, ['t'], ['x']⟩])).flatten).Perm
        (([⟨1, ['a'], ['x']⟩, ⟨2, ['b'], ['y']⟩].map
          (fun js => process_recommendations js [⟨3, ['t'], ['x']⟩])).flatten) ∧
      generate_recommendation_parallel [⟨2, ['b'], ['y']⟩, ⟨1, ['a'], ['x']⟩]
          [⟨3, ['t'], ['x']⟩] ([0, 1] : List (Fin 2)) =
        generate_recommendation_parallel [⟨1, ['a'], ['x']⟩, ⟨2, ['b'], ['y']⟩]
          [⟨3, ['t'], ['x']⟩] ([1, 0] : List (Fin 2)) :=
  c8_dispatch_order_independent [⟨1, ['a'], ['x']⟩, ⟨2, ['b'], ['y']⟩]
    [⟨2, ['b'], ['y']⟩, ⟨1, ['a'], ['x']⟩] [⟨3, ['t'], ['x']⟩] [⟨3, ['t'], ['x']⟩]
    ([1, 0] : List (Fin 2)) ([0, 1] : List (Fin 2))
    (by decide) (by decide) (by decide) (by decide) (by decide) (by decide)
